import Mathlib

/-!
Shallow embedding of the zxcvbn-cpp pattern-matching engine
(`native-src/zxcvbn/matching.cpp`) and verification of its specification.

Passwords are modelled as `List Char` (the source treats a password as a
byte string; the spec fixes an ASCII byte model).  Machine indices
(`idx_t`, `size_t`) are modelled as `Nat`; `date_t` (unsigned) as `Nat`.
External collaborators that are declared but not defined under `src/`
(`default_ranked_dicts`, `build_ranked_dict`, `graphs`,
`most_guessable_match_sequence`, `util::ascii_lower`,
`util::reverse_string`, `REFERENCE_YEAR`) are either taken as parameters
or modelled from the spec, as noted at each definition.

Loops of the source are embedded as structural recursion; `while` loops
whose index strictly increases are given an explicit fuel argument that
call sites instantiate generously (the fuel never runs out for the
call-site values), so that every definition evaluates by `rfl`/`decide`.
-/

namespace Zxcvbn

/-- A password / token: the source's `std::string`, under the spec's ASCII byte model. -/
abbrev Str := List Char

/-- The source's `s.substr(i, n)` on byte strings. -/
def slice (s : Str) (i n : Nat) : Str := (s.drop i).take n

/-- Modelled from the spec: `util::ascii_lower` (util.hpp is not under src/);
§4.4: "Case-folding is ASCII-only …; non-ASCII bytes pass through unfolded". -/
def asciiLower (s : Str) : Str :=
  s.map (fun c => if 'A' ≤ c ∧ c ≤ 'Z' then Char.ofNat (c.toNat + 32) else c)

/-- The source's `stou` (`std::stoul`) applied to all-digit tokens. -/
def stou (s : Str) : Nat :=
  s.foldl (fun a c => a * 10 + (c.toNat - '0'.toNat)) 0

/-- Dictionary tags (`DictionaryTag` from common.hpp, which is not under src/):
`USER_INPUTS` is the only tag the matching code names; the built-in tags are opaque. -/
inductive DictionaryTag : Type where
  | userInputs : DictionaryTag
  | builtin : Nat → DictionaryTag
deriving DecidableEq, Repr

/-- Graph tags (`GraphTag`): the matching code names QWERTY and DVORAK;
the remaining keyboard/keypad layouts are opaque. -/
inductive GraphTag : Type where
  | qwerty : GraphTag
  | dvorak : GraphTag
  | keypad : GraphTag
  | other : Nat → GraphTag
deriving DecidableEq, Repr

/-- `RegexTag`: the regex table `REGEXEN` holds a single entry. -/
inductive RegexTag : Type where
  | recentYear : RegexTag
deriving DecidableEq, Repr

/-- `SequenceTag` of the sequence matcher. -/
inductive SequenceTag : Type where
  | lower : SequenceTag
  | upper : SequenceTag
  | digits : SequenceTag
  | unicode : SequenceTag
deriving DecidableEq, Repr

/-- `DictionaryMatch` payload.  The source's 1-character substitution
strings are embedded as `Char` (every key and value of `L33T_TABLE` is a
single character). -/
structure DictionaryMatch : Type where
  dictionary_tag : DictionaryTag
  matched_word : Str
  rank : Nat
  reversed : Bool
  l33t : Bool
  sub : List (Char × Char)
  sub_display : Str
deriving DecidableEq, Repr

/-- `SpatialMatch` payload. -/
structure SpatialMatch : Type where
  graph : GraphTag
  turns : Nat
  shifted_count : Nat
deriving DecidableEq, Repr

/-- `SequenceMatch` payload. -/
structure SequenceMatch : Type where
  sequence_tag : SequenceTag
  sequence_space : Nat
  ascending : Bool
deriving DecidableEq, Repr

/-- `RegexMatch` payload: the tag plus the `PortableRegexMatch` group list. -/
structure RegexMatch : Type where
  regex_tag : RegexTag
  groups : List Str
deriving DecidableEq, Repr

/-- `DateMatch` payload. -/
structure DateMatch : Type where
  separator : Str
  year : Nat
  month : Nat
  day : Nat
  has_full_year : Bool
deriving DecidableEq, Repr

mutual
/-- A `Match`: inclusive byte offsets `i ≤ j`, the token, and the payload. -/
inductive Match : Type where
  | mk (i : Nat) (j : Nat) (token : Str) (pattern : Pattern)

/-- The tagged union of matcher payloads.  `RepeatMatch` holds the
recursive decomposition of the base token, so it nests `List Match`;
its `base_guesses` (a `double` produced by the external scoring engine)
is modelled as `Rat`. -/
inductive Pattern : Type where
  | dictionary (d : DictionaryMatch)
  | spatial (s : SpatialMatch)
  | sequence (s : SequenceMatch)
  | regex (r : RegexMatch)
  | date (d : DateMatch)
  | repeatM (base_token : Str) (base_guesses : Rat) (base_matches : List Match)
      (repeat_count : Nat)
end

def Match.i : Match → Nat
  | .mk i _ _ _ => i

def Match.j : Match → Nat
  | .mk _ j _ _ => j

def Match.token : Match → Str
  | .mk _ _ t _ => t

def Match.pattern : Match → Pattern
  | .mk _ _ _ p => p

/-- The comparator of `sorted`: `std::make_pair(m1.i, m1.j) < std::make_pair(m2.i, m2.j)`. -/
def matchLt (a b : Match) : Bool :=
  decide (a.i < b.i ∨ (a.i = b.i ∧ a.j < b.j))

/-- Insert into a `(i, j)`-sorted list, before the first strictly greater element. -/
def sortIns (m : Match) : List Match → List Match
  | [] => [m]
  | n :: ns => if matchLt n m then n :: sortIns m ns else m :: n :: ns

/-- The source's `sorted`: sort ascending by the pair `(i, j)`.
`std::sort` leaves the order of `(i, j)`-ties unspecified; this embedding
uses a stable insertion sort, which is one of the permitted outcomes. -/
def sorted : List Match → List Match
  | [] => []
  | m :: ms => sortIns m (sorted ms)

/-- One ranked dictionary: word → 1-based rank. -/
abbrev RankedDict := List (Str × Nat)

/-- `RankedDicts`: dictionary tag → ranked dictionary.  Supplied by the
dictionary provider (frequency_lists.hpp, not under src/), so it is a
parameter of the dispatcher. -/
abbrev RankedDicts := List (DictionaryTag × RankedDict)

/-- `ranked_dict.find(word)` followed by reading the rank. -/
def lookupRank (d : RankedDict) (w : Str) : Option Nat :=
  (d.find? (fun p => decide (p.1 = w))).map (fun p => p.2)

/-- Modelled from the spec: `build_ranked_dict` (frequency_lists.hpp, not
under src/); §4.1: each word of the caller's list is "lower-cased and
ranked by original order, 1-based". -/
def build_ranked_dict (orderedList : List Str) : RankedDict :=
  orderedList.enum.map (fun p => (asciiLower p.2, p.1 + 1))

/-- One keyboard adjacency list: character → directional neighbor slots,
each an optional 1–2 character string (index 0 unshifted, 1 shifted). -/
abbrev Graph := List (Char × List (Option Str))

/-- `Graphs`: supplied by the graph provider (adjacency_graphs.hpp, not
under src/), so it is a parameter of the dispatcher. -/
abbrev Graphs := List (GraphTag × Graph)

/-- The result of `most_guessable_match_sequence`. -/
structure ScoreResult : Type where
  guesses : Rat
  sequence : List Match

/-- Modelled from the spec: the external scoring engine's interface (§6):
`score(password, candidate_matches, exclude_additive: bool) -> {guesses, sequence}`.
The repeat matcher always passes `false` for the flag, so the flag is dropped. -/
abbrev Scorer := Str → List Match → ScoreResult

/-!  ### Dictionary matcher  -/

/-- `dictionary_match`: for every dictionary and every substring
`password_lower[i..j]`, emit a match when the substring is a key. -/
def dictionary_match (password : Str) (ranked_dictionaries : RankedDicts) : List Match :=
  let len := password.length
  let password_lower := asciiLower password
  sorted (ranked_dictionaries.flatMap (fun td =>
    (List.range len).flatMap (fun i =>
      (List.range' i (len - i)).filterMap (fun j =>
        let word := slice password_lower i (j - i + 1)
        match lookupRank td.2 word with
        | some rank =>
            some (Match.mk i j (slice password i (j - i + 1))
              (.dictionary ⟨td.1, word, rank, false, false, [], []⟩))
        | none => none))))

/-- Rewrite a dictionary payload's `reversed` flag (the reverse matcher's
`match.get_dictionary().reversed = true`). -/
def setReversed : Pattern → Pattern
  | .dictionary d => .dictionary { d with reversed := true }
  | p => p

/-- `reverse_dictionary_match`: run over the reversed password, then reverse
tokens back and remap coordinates `i' = len-1-j`, `j' = len-1-i`.
`util::reverse_string` is modelled as `List.reverse` (byte model). -/
def reverse_dictionary_match (password : Str) (ranked_dictionaries : RankedDicts) :
    List Match :=
  let reversed_password := password.reverse
  let ms := dictionary_match reversed_password ranked_dictionaries
  sorted (ms.map (fun m =>
    Match.mk (password.length - 1 - m.j) (password.length - 1 - m.i)
      m.token.reverse (setReversed m.pattern)))

/-!  ### Sequence matcher  -/

/-- Code point at index `k` as an `Int` (the source subtracts `char`s). -/
def codeAt (s : Str) (k : Nat) : Int :=
  ((s.getD k ' ').toNat : Int)

/-- Classify a run token: `^[a-z]+$` → lower, `^[A-Z]+$` → upper,
`^\d+$` → digits, otherwise unicode. -/
def classifySequence (token : Str) : SequenceTag × Nat :=
  if token ≠ [] ∧ token.all (fun c => decide ('a' ≤ c ∧ c ≤ 'z')) then (.lower, 26)
  else if token ≠ [] ∧ token.all (fun c => decide ('A' ≤ c ∧ c ≤ 'Z')) then (.upper, 26)
  else if token ≠ [] ∧ token.all (fun c => c.isDigit) then (.digits, 10)
  else (.unicode, 26)

/-- The `update` closure of `sequence_match` (MAX_DELTA = 5). -/
def seqUpdate (password : Str) (acc : List Match) (i j : Nat) (delta : Int) :
    List Match :=
  if j - i > 1 ∨ delta.natAbs = 1 then
    if 0 < delta.natAbs ∧ delta.natAbs ≤ 5 then
      let token := slice password i (j - i + 1)
      let c := classifySequence token
      acc ++ [Match.mk i j token (.sequence ⟨c.1, c.2, decide (0 < delta)⟩)]
    else acc
  else acc

/-- The `for (k = 1; k < len; ++k)` loop of `sequence_match`, iterated over
the explicit index list; state: run start `i`, `maybe_last_delta`, accumulator. -/
def seqLoop (password : Str) : List Nat → Nat → Option Int → List Match → List Match
  | [], i, lastDelta, acc =>
      match lastDelta with
      | some d => seqUpdate password acc i (password.length - 1) d
      | none => acc
  | k :: ks, i, lastDelta, acc =>
      let delta : Int := codeAt password k - codeAt password (k - 1)
      match lastDelta with
      | none => seqLoop password ks i (some delta) acc
      | some last =>
          if delta = last then seqLoop password ks i (some last) acc
          else seqLoop password ks (k - 1) (some delta) (seqUpdate password acc i (k - 1) last)

/-- `sequence_match`: runs of constant code-point delta. -/
def sequence_match (password : Str) : List Match :=
  if password.length = 1 then []
  else seqLoop password (List.range' 1 (password.length - 1)) 0 none []

/-!  ### Regex matcher  -/

/-- Whether an entire string matches `19\d\d|200\d|201\d` (the single
`REGEXEN` entry, RECENT_YEAR). -/
def recentYearFull (t : Str) : Bool :=
  match t with
  | [a, b, c, d] =>
      decide ((a = '1' ∧ b = '9' ∧ c.isDigit ∧ d.isDigit) ∨
        (a = '2' ∧ b = '0' ∧ (c = '0' ∨ c = '1') ∧ d.isDigit))
  | _ => false

/-- The `while (std::regex_match(lastIndex + begin, end, …))` loop of
`regex_match`.  Note the source calls `std::regex_match`, which anchors
at both ends of the remaining range, and stores `rx_match.position()`
(which is relative to `lastIndex`) as the match's `i`. -/
def regexLoop (password : Str) : Nat → Nat → List Match
  | 0, _ => []
  | fuel + 1, lastIndex =>
      let t := password.drop lastIndex
      if recentYearFull t then
        Match.mk 0 (t.length - 1) t (.regex ⟨.recentYear, [t]⟩) ::
          regexLoop password fuel (lastIndex + t.length)
      else []

/-- `regex_match` over the fixed `REGEXEN` table (single RECENT_YEAR entry). -/
def regex_match (password : Str) : List Match :=
  sorted (regexLoop password (password.length + 1) 0)

/-!  ### Date matcher  -/

/-- `DMY` of the date matcher. -/
structure DMY : Type where
  year : Nat
  month : Nat
  day : Nat
deriving DecidableEq, Repr

/-- Modelled from the spec: `REFERENCE_YEAR` lives in scoring.hpp (not
under src/); the source comment picks "a year closest to 2000.
(scoring.REFERENCE_YEAR)". -/
def REFERENCE_YEAR : Nat := 2000

/-- `two_to_four_digit_year`. -/
def two_to_four_digit_year (year : Nat) : Nat :=
  if year > 99 then year
  else if year > 50 then year + 1900
  else year + 2000

/-- `map_ints_to_dm`: try `(day, month) = (vals[0], vals[1])` then the swap. -/
def map_ints_to_dm (a b : Nat) : Option DMY :=
  if 1 ≤ a ∧ a ≤ 31 ∧ 1 ≤ b ∧ b ≤ 12 then some ⟨0, b, a⟩
  else if 1 ≤ b ∧ b ≤ 31 ∧ 1 ≤ a ∧ a ≤ 12 then some ⟨0, a, b⟩
  else none

/-- `map_ints_to_dmy` with the source's loops over `vals` and
`possible_year_splits` unrolled (DATE_MIN_YEAR = 1000, DATE_MAX_YEAR = 2050;
`possible_year_splits` tries the year last, then first). -/
def map_ints_to_dmy (v0 v1 v2 : Nat) : Option DMY :=
  if 31 < v1 ∨ v1 = 0 then none
  else if (99 < v0 ∧ v0 < 1000) ∨ 2050 < v0 ∨ (99 < v1 ∧ v1 < 1000) ∨ 2050 < v1 ∨
      (99 < v2 ∧ v2 < 1000) ∨ 2050 < v2 then none
  else
    let over31 := (if 31 < v0 then 1 else 0) + (if 31 < v1 then 1 else 0) +
      (if 31 < v2 then 1 else 0)
    let over12 := (if 12 < v0 then 1 else 0) + (if 12 < v1 then 1 else 0) +
      (if 12 < v2 then 1 else 0)
    let under1 := (if v0 = 0 then 1 else 0) + (if v1 = 0 then 1 else 0) +
      (if v2 = 0 then 1 else 0)
    if 2 ≤ over31 ∨ over12 = 3 ∨ 2 ≤ under1 then none
    else if 1000 ≤ v2 ∧ v2 ≤ 2050 then
      match map_ints_to_dm v0 v1 with
      | some dm => some ⟨v2, dm.month, dm.day⟩
      | none => none
    else if 1000 ≤ v0 ∧ v0 ≤ 2050 then
      match map_ints_to_dm v1 v2 with
      | some dm => some ⟨v0, dm.month, dm.day⟩
      | none => none
    else
      match map_ints_to_dm v0 v1 with
      | some dm => some ⟨two_to_four_digit_year v2, dm.month, dm.day⟩
      | none =>
          match map_ints_to_dm v1 v2 with
          | some dm => some ⟨two_to_four_digit_year v0, dm.month, dm.day⟩
          | none => none

/-- `DATE_SPLITS`, indexed by `token.length - 4`. -/
def DATE_SPLITS : Nat → List (Nat × Nat)
  | 0 => [(1, 2), (2, 3)]
  | 1 => [(1, 3), (2, 3)]
  | 2 => [(1, 2), (2, 4), (4, 5)]
  | 3 => [(1, 3), (2, 3), (4, 5), (4, 6)]
  | 4 => [(2, 4), (4, 6)]
  | _ => []

/-- `metric`: absolute distance of the candidate's year from REFERENCE_YEAR. -/
def dateMetric (c : DMY) : Nat :=
  if c.year ≥ REFERENCE_YEAR then c.year - REFERENCE_YEAR
  else REFERENCE_YEAR - c.year

/-- `std::min_element` over the candidates: the first element attaining
the minimum metric (later candidates replace only on strict improvement). -/
def pickBest (c : DMY) (cs : List DMY) : DMY :=
  cs.foldl (fun b x => if dateMetric x < dateMetric b then x else b) c

/-- The candidate dates of one all-digit token: every documented split
that `map_ints_to_dmy` resolves. -/
def dateCandidates (token : Str) : List DMY :=
  (DATE_SPLITS (token.length - 4)).filterMap (fun kl =>
    map_ints_to_dmy (stou (token.take kl.1)) (stou (slice token kl.1 (kl.2 - kl.1)))
      (stou (token.drop kl.2)))

/-- The no-separator pass of `date_match`: every all-digit substring of
length 4–8, resolved through `DATE_SPLITS` and disambiguated by `pickBest`. -/
def datePassA (password : Str) : List Match :=
  (List.range password.length).flatMap (fun i =>
    if i + 4 ≤ password.length then
      (List.range' (i + 3) 5).filterMap (fun j =>
        if j < password.length then
          let token := slice password i (j - i + 1)
          if token.all (fun c => c.isDigit) then
            match dateCandidates token with
            | [] => none
            | c :: cs =>
                let best := pickBest c cs
                some (Match.mk i j token (.date ⟨[], best.year, best.month, best.day, false⟩))
          else none
        else none)
    else [])

/-- The separator characters of `maybe_date_with_separator`:
`[\s/\\_.-]` with ECMAScript `\s` restricted to ASCII whitespace. -/
def dateSepChars : List Char :=
  [' ', '\t', '\n', '\x0b', '\x0c', '\r', '/', '\\', '_', '.', '-']

/-- Parse `^(\d{1,4})([\s/\\_.-])(\d{1,2})\2(\d{1,4})$`.  The separator
class contains no digit, so the digit groups are exactly the maximal
digit runs and the decomposition is unique. -/
def parseSepDate (token : Str) : Option (Nat × Char × Nat × Nat) :=
  let g1 := token.takeWhile (fun c => c.isDigit)
  match token.drop g1.length with
  | [] => none
  | s1 :: rest2 =>
      if dateSepChars.contains s1 ∧ 1 ≤ g1.length ∧ g1.length ≤ 4 then
        let g3 := rest2.takeWhile (fun c => c.isDigit)
        match rest2.drop g3.length with
        | [] => none
        | s2 :: rest4 =>
            if s2 = s1 ∧ 1 ≤ g3.length ∧ g3.length ≤ 2 then
              if rest4 ≠ [] ∧ rest4.all (fun c => c.isDigit) ∧ rest4.length ≤ 4 then
                some (stou g1, s1, stou g3, stou rest4)
              else none
            else none
      else none

/-- The with-separator pass of `date_match`: substrings of length 6–10
matching the separator regex, resolved directly. -/
def datePassB (password : Str) : List Match :=
  (List.range password.length).flatMap (fun i =>
    if i + 6 ≤ password.length then
      (List.range' (i + 5) 5).filterMap (fun j =>
        if j < password.length then
          let token := slice password i (j - i + 1)
          match parseSepDate token with
          | none => none
          | some (v0, sep, v1, v2) =>
              match map_ints_to_dmy v0 v1 v2 with
              | none => none
              | some dmy =>
                  some (Match.mk i j token (.date ⟨[sep], dmy.year, dmy.month, dmy.day, false⟩))
        else none)
    else [])

/-- Both passes of `date_match`, before overlap pruning. -/
def datePre (password : Str) : List Match :=
  datePassA password ++ datePassB password

/-- The `remove_if` predicate: `other` strictly covers `m`
(`other.i ≤ m.i && other.j >= m.j`, ranges not identical). -/
def isStrictSuper (o m : Match) : Bool :=
  !(decide (o.i = m.i ∧ o.j = m.j)) && decide (o.i ≤ m.i ∧ m.j ≤ o.j)

/-- Overlap pruning: remove matches that are strict index-range subsets
of another match of the list. -/
def prune (ms : List Match) : List Match :=
  ms.filter (fun m => !(ms.any (fun o => isStrictSuper o m)))

/-- `date_match`: both passes, overlap pruning, then sort. -/
def date_match (password : Str) : List Match :=
  sorted (prune (datePre password))

/-!  ### Leet matcher  -/

/-- `L33T_TABLE` (every key and substitution is one character, embedded as `Char`). -/
def L33T_TABLE : List (Char × List Char) :=
  [('a', ['4', '@']),
   ('b', ['8']),
   ('c', ['(', '\x7b', '[', '<']),
   ('e', ['3']),
   ('g', ['6', '9']),
   ('i', ['1', '!', '|']),
   ('l', ['1', '|', '7']),
   ('o', ['0']),
   ('s', ['$', '5']),
   ('t', ['+', '7']),
   ('x', ['%']),
   ('z', ['2'])]

/-- `relevant_l33t_subtable`: keep only substitutions occurring in the
password; drop letters with no surviving substitution. -/
def relevant_l33t_subtable (password : Str) (table : List (Char × List Char)) :
    List (Char × List Char) :=
  table.filterMap (fun item =>
    let relevant_subs := item.2.filter (fun sub => password.contains sub)
    if relevant_subs = [] then none else some (item.1, relevant_subs))

/-- Canonical form of one substitution assoc list: sorted by the pair
(the dedup label of `enumerate_l33t_subs`). -/
def pairLt (p q : Char × Char) : Bool :=
  decide (p.1 < q.1 ∨ (p.1 = q.1 ∧ p.2 < q.2))

def pairSortIns (p : Char × Char) : List (Char × Char) → List (Char × Char)
  | [] => [p]
  | q :: qs => if pairLt q p then q :: pairSortIns p qs else p :: q :: qs

def canonicalSub : List (Char × Char) → List (Char × Char)
  | [] => []
  | p :: ps => pairSortIns p (canonicalSub ps)

/-- The `dedup` closure of `enumerate_l33t_subs`: keep the first
occurrence of each canonical (sorted) mapping set. -/
def dedupSubs (subs : List (List (Char × Char))) : List (List (Char × Char)) :=
  (subs.foldl (fun st sub =>
    let c := canonicalSub sub
    if st.1.contains c then st else (c :: st.1, st.2 ++ [sub])) ([], [])).2

/-- The inner extension step of `enumerate_l33t_subs`: extend one partial
substitution with `(l33t_chr, first_key)`, branching when the character is
already mapped to another letter. -/
def extendSub (chr firstKey : Char) (sub : List (Char × Char)) :
    List (List (Char × Char)) :=
  match sub.find? (fun q => decide (q.1 = chr)) with
  | none => [sub ++ [(chr, firstKey)]]
  | some _ => [sub, sub.eraseP (fun q => decide (q.1 = chr)) ++ [(chr, firstKey)]]

/-- `enumerate_l33t_subs`: all maximal consistent substitution assignments,
deduplicated after each letter. -/
def enumerate_l33t_subs (table : List (Char × List Char)) : List (List (Char × Char)) :=
  table.foldl (fun subs item =>
    dedupSubs (item.2.flatMap (fun chr => subs.flatMap (extendSub chr item.1)))) [[]]

/-- `translate`: apply a character substitution map to a string. -/
def translate (s : Str) (chr_map : List (Char × Char)) : Str :=
  s.map (fun c =>
    match chr_map.find? (fun q => decide (q.1 = c)) with
    | some q => q.2
    | none => c)

/-- Build `sub_display`: `"<char> -> <letter>"` pairs, comma separated. -/
def subDisplay (ms : List (Char × Char)) : Str :=
  List.intercalate (", ".toList) (ms.map (fun p => [p.1] ++ (" -> ".toList) ++ [p.2]))

/-- The per-match rewriting step of `l33t_match`: drop matches without a
real substitution, restrict the map to characters of this token, and mark
`l33t` (only dictionary payloads reach this point). -/
def l33tTransform (password : Str) (sub : List (Char × Char)) : Match → Option Match
  | .mk i j _ (.dictionary d) =>
      let token := slice password i (j - i + 1)
      if asciiLower token = d.matched_word then none
      else
        let match_sub := sub.filter (fun q => token.contains q.1)
        let d' := { d with l33t := true, sub := match_sub, sub_display := subDisplay match_sub }
        some (Match.mk i j token (.dictionary d'))
  | _ => none

/-- The loop of `l33t_match` over the enumerated substitutions;
`if (!sub.size()) break;` stops at the first empty substitution. -/
def l33tLoop (password : Str) (ranked_dictionaries : RankedDicts) :
    List (List (Char × Char)) → List Match
  | [] => []
  | sub :: rest =>
      if sub = [] then []
      else
        (dictionary_match (translate password sub) ranked_dictionaries).filterMap
            (l33tTransform password sub) ++
          l33tLoop password ranked_dictionaries rest

/-- `l33t_match`: dictionary matching over every substituted password,
then the single-character noise filter and sort. -/
def l33t_match (password : Str) (ranked_dictionaries : RankedDicts)
    (l33t_table : List (Char × List Char)) : List Match :=
  sorted (((l33tLoop password ranked_dictionaries
      (enumerate_l33t_subs (relevant_l33t_subtable password l33t_table))).filter
    (fun a => !(decide (a.token.length ≤ 1)))))

/-!  ### Spatial matcher  -/

/-- The characters of `SHIFTED_RX`: `[~!@#$%^&*()_+QWERTYUIOP{}|ASDFGHJKL:"ZXCVBNM<>?]`. -/
def SHIFTED_CHARS : Str :=
  "~!@#$%^&*()_+QWERTYUIOP\x7b\x7d|ASDFGHJKL:\"ZXCVBNM<>?".toList

/-- Look up a character's adjacency list (absent characters give the
empty vector, as in the source). -/
def graphAdjacents (graph : Graph) (c : Char) : List (Option Str) :=
  match graph.find? (fun p => decide (p.1 = c)) with
  | some p => p.2
  | none => []

/-- Scan the adjacency slots for the next character: returns the slot
index (`found_direction`) and the position of the character inside the
slot string (index 1 means shifted). -/
def findAdjacent (adjacents : List (Option Str)) (cur : Char) : Option (Nat × Nat) :=
  (adjacents.enum.filterMap (fun p =>
    match p.2 with
    | some a => (a.findIdx? (fun x => decide (x = cur))).map (fun idx => (p.1, idx))
    | none => none)).head?

/-- The inner `while (true)` loop of `spatial_match_helper`: grow the run
from `j`; returns the final `j` together with `turns` and `shifted_count`. -/
def spatialExtend (password : Str) (graph : Graph) :
    Nat → Nat → Int → Nat → Nat → Nat × Nat × Nat
  | 0, j, _, turns, shifted => (j, turns, shifted)
  | fuel + 1, j, lastDirection, turns, shifted =>
      let prevChar := password.getD (j - 1) ' '
      let adjacents := graphAdjacents graph prevChar
      if j < password.length then
        let curChar := password.getD j ' '
        match findAdjacent adjacents curChar with
        | some di =>
            let shifted' := if di.2 = 1 then shifted + 1 else shifted
            if lastDirection ≠ (di.1 : Int) then
              spatialExtend password graph fuel (j + 1) (di.1 : Int) (turns + 1) shifted'
            else
              spatialExtend password graph fuel (j + 1) lastDirection turns shifted'
        | none => (j, turns, shifted)
      else (j, turns, shifted)

/-- The initial `shifted_count` of one spatial run: 1 when the first
character of the run matches `SHIFTED_RX` on a shift-aware graph. -/
def spatialShifted0 (password : Str) (graph_tag : GraphTag) (i : Nat) : Nat :=
  if (graph_tag = GraphTag.qwerty ∨ graph_tag = GraphTag.dvorak) ∧
      SHIFTED_CHARS.contains (password.getD i ' ') then 1 else 0

/-- The outer `while (i < password.length() - 1)` loop of
`spatial_match_helper`. -/
def spatialOuter (password : Str) (graph : Graph) (graph_tag : GraphTag) :
    Nat → Nat → List Match
  | 0, _ => []
  | fuel + 1, i =>
      if i + 1 < password.length then
        let r := spatialExtend password graph (password.length + 1) (i + 1) (-1) 0
          (spatialShifted0 password graph_tag i)
        let rest := spatialOuter password graph graph_tag fuel r.1
        if r.1 - i > 2 then
          Match.mk i (r.1 - 1) (slice password i (r.1 - i))
            (.spatial ⟨graph_tag, r.2.1, r.2.2⟩) :: rest
        else rest
      else []

/-- `spatial_match_helper` (the empty-password guard mirrors the source's
early return, which protects the unsigned `password.length() - 1`). -/
def spatial_match_helper (password : Str) (graph : Graph) (graph_tag : GraphTag) :
    List Match :=
  if password.length = 0 then []
  else spatialOuter password graph graph_tag (password.length + 1) 0

/-- `spatial_match`: one helper run per adjacency graph (no final sort). -/
def spatial_match (password : Str) (graphs : Graphs) : List Match :=
  graphs.flatMap (fun item => spatial_match_helper password item.2 item.1)

/-!  ### Repeat matcher  -/

/-- `base^k`: `k` concatenated copies of `base`. -/
def powList (base : Str) : Nat → Str
  | 0 => []
  | k + 1 => base ++ powList base k

/-- Whether the unit of length `L` starting at `p` is immediately followed
by one full copy of itself (the condition for `(.+)\1+` to accept capture
length `L` at position `p`). -/
def hasRepeatAt (t : Str) (p L : Nat) : Bool :=
  decide (p + 2 * L ≤ t.length ∧ slice t p L = slice t (p + L) L)

/-- The lazy capture `(.+?)`: the smallest length with a following copy. -/
def lazyL (t : Str) (p : Nat) : Option Nat :=
  (List.range' 1 ((t.length - p) / 2)).find? (hasRepeatAt t p)

/-- The greedy capture `(.+)`: the largest length with a following copy. -/
def greedyL (t : Str) (p : Nat) : Option Nat :=
  (List.range' 1 ((t.length - p) / 2)).reverse.find? (hasRepeatAt t p)

/-- `std::regex_search`'s leftmost match position: the first position
where either repeat pattern can match. -/
def searchPos (t : Str) : Option Nat :=
  (List.range t.length).find? (fun p => (lazyL t p).isSome)

def listMax (l : List Nat) : Nat := l.foldr max 0

/-- The copies consumed by `\1+` (plus the capture itself): the largest
`k ≥ 1` such that `k` consecutive copies of the unit start at `p`
(the set of such `k` is downward closed, so the maximum is the count). -/
def copiesAt (t : Str) (p L : Nat) : Nat :=
  listMax ((List.range (t.length + 1)).filter (fun k =>
    decide (1 ≤ k ∧ p + k * L ≤ t.length ∧ slice t p (k * L) = powList (slice t p L) k)))

/-- Whether `L` is a repetition period of the whole string `g`
(the anchored `^(.+?)\1+$` accepts capture length `L`). -/
def periodAt (g : Str) (L : Nat) : Bool :=
  decide (0 < L ∧ L * 2 ≤ g.length ∧ g.length % L = 0 ∧
    g = powList (g.take L) (g.length / L))

/-- The anchored lazy pattern `^(.+?)\1+$`: the shortest repetition period. -/
def minPeriod (g : Str) : Option Nat :=
  (List.range g.length).find? (periodAt g)

/-- One discovered repeat: relative match position, overall match length
and the chosen base token. -/
structure RepeatFound : Type where
  pos : Nat
  len : Nat
  base : Str
deriving DecidableEq, Repr

/-- One round of the repeat scan over the remaining suffix `t`: run the
greedy and lazy searches; greedy wins only when strictly longer, and its
unit is reduced to the shortest period by the anchored lazy pattern
(the source `assert`s that the anchored pattern matches; the fallback arm
is unreachable because the greedy match is a perfect power). -/
def repeatFind (t : Str) : Option RepeatFound :=
  match searchPos t with
  | none => none
  | some p =>
      match greedyL t p, lazyL t p with
      | some Lg, some Ll =>
          let gLen := copiesAt t p Lg * Lg
          let lLen := copiesAt t p Ll * Ll
          if lLen < gLen then
            let g := slice t p gLen
            let base :=
              match minPeriod g with
              | some L => g.take L
              | none => g
            some ⟨p, gLen, base⟩
          else some ⟨p, lLen, slice t p Ll⟩
      | _, _ => none

/-- The `while (lastIndex < password.length())` loop of `repeat_match`.
`omniRec` is the recursive `omnimatch` invocation on the base token;
the external scorer supplies `base_guesses` and `base_matches`. -/
def repeatLoop (omniRec : Str → List Match) (scorer : Scorer) (password : Str) :
    Nat → Nat → List Match
  | 0, _ => []
  | fuel + 1, lastIndex =>
      if lastIndex < password.length then
        match repeatFind (password.drop lastIndex) with
        | none => []
        | some r =>
            let i := lastIndex + r.pos
            let j := lastIndex + r.pos + r.len - 1
            let baseAnalysis := scorer r.base (omniRec r.base)
            Match.mk i j (slice (password.drop lastIndex) r.pos r.len)
                (.repeatM r.base baseAnalysis.guesses baseAnalysis.sequence
                  (r.len / r.base.length)) ::
              repeatLoop omniRec scorer password fuel (j + 1)
      else []

/-- `repeat_match` (parameterized by the recursive dispatcher invocation). -/
def repeat_match (omniRec : Str → List Match) (scorer : Scorer) (password : Str) :
    List Match :=
  repeatLoop omniRec scorer password (password.length + 1) 0

/-!  ### Omnimatch dispatcher  -/

/-- `omnimatch` with explicit recursion fuel: the nested `omnimatch` call
of the repeat matcher operates on a strictly shorter string, so a fuel of
`password.length + 1` (used by `omnimatch` below) never runs out. -/
def omnimatchF (builtinDicts : RankedDicts) (graphs : Graphs) (scorer : Scorer) :
    Nat → Str → List Str → List Match
  | 0, _, _ => []
  | fuel + 1, password, ordered_list =>
      let ranked_dictionaries :=
        builtinDicts ++ [(DictionaryTag.userInputs, build_ranked_dict ordered_list)]
      sorted
        (dictionary_match password ranked_dictionaries ++
         reverse_dictionary_match password ranked_dictionaries ++
         l33t_match password ranked_dictionaries L33T_TABLE ++
         spatial_match password graphs ++
         repeat_match (fun base => omnimatchF builtinDicts graphs scorer fuel base [])
           scorer password ++
         sequence_match password ++
         regex_match password ++
         date_match password)

/-- `omnimatch(password, ordered_list)`: the dispatcher, parameterized by
the process-wide built-in dictionaries, adjacency graphs and the external
scoring engine (all loaded outside the matching engine).  The nested
one-argument `omnimatch(base_token)` call of the repeat matcher uses an
empty user word list. -/
def omnimatch (builtinDicts : RankedDicts) (graphs : Graphs) (scorer : Scorer)
    (password : Str) (ordered_list : List Str) : List Match :=
  omnimatchF builtinDicts graphs scorer (password.length + 1) password ordered_list

/-- A degenerate scoring engine used to exercise the dispatcher on
concrete inputs. -/
def stubScorer : Scorer := fun _ _ => ⟨0, []⟩

/-!  ## Helper lemmas  -/

/-- The bounds-and-token invariant of a match against a password. -/
def GoodMatch (password : Str) (m : Match) : Prop :=
  m.i ≤ m.j ∧ m.j < password.length ∧
    m.token = slice password m.i (m.j - m.i + 1)

theorem slice_length (s : Str) (i n : Nat) (h : i + n ≤ s.length) :
    (slice s i n).length = n := by
  simp only [slice, List.length_take, List.length_drop]
  omega

theorem slice_all (s : Str) : slice s 0 s.length = s := by
  simp [slice]

theorem slice_of_drop (s : Str) (k i n : Nat) :
    slice (s.drop k) i n = slice s (k + i) n := by
  simp [slice, List.drop_drop]

theorem slice_append (s : Str) (p a b : Nat) :
    slice s p (a + b) = slice s p a ++ slice s (p + a) b := by
  simp only [slice, List.take_add, List.drop_drop]

theorem slice_take (s : Str) (p a n : Nat) (h : a ≤ n) :
    (slice s p n).take a = slice s p a := by
  simp only [slice, List.take_take]
  rw [Nat.min_eq_left h]

theorem slice_reverse (s : Str) (i n : Nat) (h : i + n ≤ s.length) :
    (slice s.reverse i n).reverse = slice s (s.length - i - n) n := by
  have h1 : s.reverse.drop i = (s.take (s.length - i)).reverse := by
    rw [List.reverse_take]
    congr 1
    omega
  have hlen : (s.take (s.length - i)).length = s.length - i := by
    rw [List.length_take]
    omega
  have h2 : (s.take (s.length - i)).reverse.take n =
      ((s.take (s.length - i)).drop (s.length - i - n)).reverse := by
    rw [List.reverse_drop, hlen]
    congr 1
    omega
  simp only [slice, h1, h2, List.reverse_reverse]
  rw [List.drop_take]
  congr 1
  omega

theorem mem_sortIns {a m : Match} {l : List Match} :
    a ∈ sortIns m l ↔ a = m ∨ a ∈ l := by
  induction l with
  | nil => simp [sortIns]
  | cons n ns ih =>
      simp only [sortIns]
      split
      · simp only [List.mem_cons, ih]
        tauto
      · simp only [List.mem_cons]

theorem mem_sorted {a : Match} {l : List Match} : a ∈ sorted l ↔ a ∈ l := by
  induction l with
  | nil => simp [sorted]
  | cons m ms ih => simp [sorted, mem_sortIns, ih]

@[simp] theorem Match.i_mk (i j : Nat) (t : Str) (p : Pattern) :
    (Match.mk i j t p).i = i := rfl

@[simp] theorem Match.j_mk (i j : Nat) (t : Str) (p : Pattern) :
    (Match.mk i j t p).j = j := rfl

@[simp] theorem Match.token_mk (i j : Nat) (t : Str) (p : Pattern) :
    (Match.mk i j t p).token = t := rfl

@[simp] theorem Match.pattern_mk (i j : Nat) (t : Str) (p : Pattern) :
    (Match.mk i j t p).pattern = p := rfl

theorem asciiLower_length (s : Str) : (asciiLower s).length = s.length := by
  simp [asciiLower]

theorem translate_length (s : Str) (cm : List (Char × Char)) :
    (translate s cm).length = s.length := by
  simp [translate]

/-!  ## Per-matcher bounds lemmas  -/

theorem dictionary_match_good (password : Str) (dicts : RankedDicts) (m : Match)
    (hm : m ∈ dictionary_match password dicts) : GoodMatch password m := by
  unfold dictionary_match at hm
  rw [mem_sorted] at hm
  simp only [List.mem_flatMap, List.mem_filterMap, List.mem_range,
    List.mem_range'_1] at hm
  obtain ⟨td, -, i, hi, j, hj, hf⟩ := hm
  rcases h : lookupRank td.2 (slice (asciiLower password) i (j - i + 1)) with - | rank
  · rw [h] at hf
    simp at hf
  · rw [h] at hf
    simp only [Option.some.injEq] at hf
    subst hf
    refine ⟨?_, ?_, rfl⟩ <;> simp only [Match.i_mk, Match.j_mk] <;> omega

theorem reverse_dictionary_match_good (password : Str) (dicts : RankedDicts)
    (m : Match) (hm : m ∈ reverse_dictionary_match password dicts) :
    GoodMatch password m := by
  unfold reverse_dictionary_match at hm
  rw [mem_sorted] at hm
  simp only [List.mem_map] at hm
  obtain ⟨m0, hm0, hf⟩ := hm
  have hg := dictionary_match_good _ _ _ hm0
  obtain ⟨hij, hjlen, htok⟩ := hg
  rw [List.length_reverse] at hjlen
  subst hf
  refine ⟨by simp only [Match.i_mk, Match.j_mk]; omega,
    by simp only [Match.j_mk]; omega, ?_⟩
  simp only [Match.token_mk, Match.i_mk, Match.j_mk]
  rw [htok, slice_reverse password m0.i (m0.j - m0.i + 1) (by omega)]
  congr 1 <;> omega

theorem l33tTransform_some (password : Str) (sub : List (Char × Char))
    (m0 m : Match) (h : l33tTransform password sub m0 = some m) :
    m.i = m0.i ∧ m.j = m0.j ∧ m.token = slice password m0.i (m0.j - m0.i + 1) := by
  rcases m0 with ⟨i, j, tok, pat⟩
  cases pat <;> simp only [l33tTransform] at h <;>
    first
    | exact Option.noConfusion h
    | skip
  case dictionary d =>
      split at h
      · simp at h
      · simp only [Option.some.injEq] at h
        subst h
        exact ⟨rfl, rfl, rfl⟩

theorem l33tLoop_good (password : Str) (dicts : RankedDicts)
    (subs : List (List (Char × Char))) (m : Match)
    (hm : m ∈ l33tLoop password dicts subs) : GoodMatch password m := by
  induction subs with
  | nil => simp [l33tLoop] at hm
  | cons sub rest ih =>
      unfold l33tLoop at hm
      split at hm
      · simp at hm
      · rw [List.mem_append] at hm
        rcases hm with hm | hm
        · rw [List.mem_filterMap] at hm
          obtain ⟨m0, hm0, hf⟩ := hm
          have hg := dictionary_match_good _ _ _ hm0
          obtain ⟨hij, hjlen, -⟩ := hg
          rw [translate_length] at hjlen
          obtain ⟨h1, h2, h3⟩ := l33tTransform_some _ _ _ _ hf
          exact ⟨by omega, by omega, by rw [h3, h1, h2]⟩
        · exact ih hm

theorem l33t_match_good (password : Str) (dicts : RankedDicts)
    (table : List (Char × List Char)) (m : Match)
    (hm : m ∈ l33t_match password dicts table) : GoodMatch password m := by
  unfold l33t_match at hm
  rw [mem_sorted, List.mem_filter] at hm
  exact l33tLoop_good _ _ _ _ hm.1

theorem datePassA_good (password : Str) (m : Match) (hm : m ∈ datePassA password) :
    GoodMatch password m := by
  unfold datePassA at hm
  simp only [List.mem_flatMap, List.mem_range] at hm
  obtain ⟨i, hi, hm⟩ := hm
  split at hm
  case isFalse => simp at hm
  case isTrue hilen =>
    rw [List.mem_filterMap] at hm
    obtain ⟨j, hj, hf⟩ := hm
    rw [List.mem_range'_1] at hj
    split at hf
    case isFalse => simp at hf
    case isTrue hjlen =>
      split at hf
      case isFalse => simp at hf
      case isTrue =>
        rcases hc : dateCandidates (slice password i (j - i + 1)) with - | ⟨c, cs⟩ <;>
          rw [hc] at hf
        · simp at hf
        · simp only [Option.some.injEq] at hf
          subst hf
          exact ⟨by simp only [Match.i_mk, Match.j_mk]; omega,
            by simpa using hjlen, rfl⟩

theorem datePassB_good (password : Str) (m : Match) (hm : m ∈ datePassB password) :
    GoodMatch password m := by
  unfold datePassB at hm
  simp only [List.mem_flatMap, List.mem_range] at hm
  obtain ⟨i, hi, hm⟩ := hm
  split at hm
  case isFalse => simp at hm
  case isTrue hilen =>
    rw [List.mem_filterMap] at hm
    obtain ⟨j, hj, hf⟩ := hm
    rw [List.mem_range'_1] at hj
    split at hf
    case isFalse => simp at hf
    case isTrue hjlen =>
      rcases hp : parseSepDate (slice password i (j - i + 1)) with - | ⟨v0, sep, v1, v2⟩ <;>
        rw [hp] at hf
      · simp at hf
      · simp only [] at hf
        rcases hd : map_ints_to_dmy v0 v1 v2 with - | dmy <;> rw [hd] at hf
        · simp at hf
        · simp only [Option.some.injEq] at hf
          subst hf
          exact ⟨by simp only [Match.i_mk, Match.j_mk]; omega,
            by simpa using hjlen, rfl⟩

theorem prune_subset {ms : List Match} {m : Match} (hm : m ∈ prune ms) : m ∈ ms :=
  (List.mem_filter.mp hm).1

theorem date_match_good (password : Str) (m : Match) (hm : m ∈ date_match password) :
    GoodMatch password m := by
  unfold date_match at hm
  rw [mem_sorted] at hm
  have hm' := prune_subset hm
  rw [datePre, List.mem_append] at hm'
  rcases hm' with h | h
  · exact datePassA_good _ _ h
  · exact datePassB_good _ _ h

theorem recentYearFull_length {t : Str} (h : recentYearFull t = true) :
    t.length = 4 := by
  unfold recentYearFull at h
  rcases t with - | ⟨a, - | ⟨b, - | ⟨c, - | ⟨d, - | ⟨e, t⟩⟩⟩⟩⟩ <;> simp_all

theorem regexLoop_nil (password : Str) (fuel li : Nat) (h : password.length ≤ li) :
    regexLoop password fuel li = [] := by
  cases fuel with
  | zero => rfl
  | succ f =>
      unfold regexLoop
      have hd : password.drop li = [] := by
        apply List.drop_eq_nil_of_le h
      rw [hd]
      rfl

theorem regex_match_eq (password : Str) :
    regex_match password =
      if recentYearFull password then
        [Match.mk 0 (password.length - 1) password (.regex ⟨.recentYear, [password]⟩)]
      else [] := by
  unfold regex_match regexLoop
  dsimp only
  rw [List.drop_zero]
  split
  case isTrue h =>
      have h4 := recentYearFull_length h
      rw [regexLoop_nil password password.length (0 + password.length) (by omega)]
      simp [sorted, sortIns]
  case isFalse h => rfl

theorem regex_match_good (password : Str) (m : Match) (hm : m ∈ regex_match password) :
    GoodMatch password m := by
  rw [regex_match_eq] at hm
  split at hm
  case isFalse => simp at hm
  case isTrue h =>
      have h4 := recentYearFull_length h
      simp only [List.mem_singleton] at hm
      subst hm
      refine ⟨by simp only [Match.i_mk, Match.j_mk]; omega,
        by simp only [Match.j_mk]; omega, ?_⟩
      simp only [Match.token_mk, Match.i_mk, Match.j_mk]
      rw [show password.length - 1 - 0 + 1 = password.length by omega, slice_all]

theorem seqUpdate_good (password : Str) (acc : List Match) (i j : Nat) (delta : Int)
    (hacc : ∀ m ∈ acc, GoodMatch password m) (hij : i ≤ j) (hj : j < password.length)
    (m : Match) (hm : m ∈ seqUpdate password acc i j delta) : GoodMatch password m := by
  unfold seqUpdate at hm
  split at hm
  · split at hm
    · rw [List.mem_append] at hm
      rcases hm with hm | hm
      · exact hacc _ hm
      · simp only [List.mem_singleton] at hm
        subst hm
        exact ⟨by simpa using hij, by simpa using hj, rfl⟩
    · exact hacc _ hm
  · exact hacc _ hm

theorem seqLoop_good (password : Str) (n : Nat) :
    ∀ (k i : Nat) (lastD : Option Int) (acc : List Match),
      (∀ m ∈ acc, GoodMatch password m) →
      k + n = password.length →
      0 < k →
      i ≤ k - 1 →
      (lastD.isSome = true → 0 < password.length ∧ i ≤ password.length - 1) →
      ∀ m ∈ seqLoop password (List.range' k n) i lastD acc, GoodMatch password m := by
  induction n with
  | zero =>
      intro k i lastD acc hacc hkn hk hik hlast m hm
      rcases lastD with - | d
      · exact hacc _ hm
      · have hl := hlast rfl
        exact seqUpdate_good password acc i (password.length - 1) d hacc
          (by omega) (by omega) m hm
  | succ n ih =>
      intro k i lastD acc hacc hkn hk hik hlast m hm
      rw [show List.range' k (n + 1) = k :: List.range' (k + 1) n from rfl] at hm
      unfold seqLoop at hm
      rcases lastD with - | last <;> simp only [] at hm
      · exact ih (k + 1) i _ acc hacc (by omega) (by omega) (by omega)
          (fun _ => ⟨by omega, by omega⟩) m hm
      · split at hm
        · exact ih (k + 1) i _ acc hacc (by omega) (by omega) (by omega)
            (fun _ => ⟨by omega, by omega⟩) m hm
        · refine ih (k + 1) (k - 1) _ _ ?_ (by omega) (by omega) (by omega)
            (fun _ => ⟨by omega, by omega⟩) m hm
          intro m' hm'
          exact seqUpdate_good password acc i (k - 1) last hacc (by omega) (by omega) m' hm'

theorem sequence_match_good (password : Str) (m : Match)
    (hm : m ∈ sequence_match password) : GoodMatch password m := by
  unfold sequence_match at hm
  split at hm
  case isTrue => simp at hm
  case isFalse h1 =>
      rcases hlen : password.length with - | n
      · rw [hlen] at hm
        simp only [Nat.zero_sub] at hm
        exact absurd hm (by simp [seqLoop, List.range'])
      · refine seqLoop_good password (password.length - 1) 1 0 none [] (by simp)
          (by omega) (by omega) (by omega) (by simp) m ?_
        exact hm

theorem spatialExtend_bounds (password : Str) (graph : Graph) (fuel : Nat) :
    ∀ (j : Nat) (lastD : Int) (turns shifted : Nat), j ≤ password.length →
      j ≤ (spatialExtend password graph fuel j lastD turns shifted).1 ∧
      (spatialExtend password graph fuel j lastD turns shifted).1 ≤ password.length := by
  induction fuel with
  | zero => intro j lastD turns shifted hj; exact ⟨Nat.le_refl _, hj⟩
  | succ f ih =>
      intro j lastD turns shifted hj
      unfold spatialExtend
      split
      case isTrue hjlen =>
          rcases hfa : findAdjacent (graphAdjacents graph (password.getD (j - 1) ' '))
              (password.getD j ' ') with - | di
          · simp only [hfa]
            exact ⟨Nat.le_refl _, hj⟩
          · simp only [hfa]
            split
            · have := ih (j + 1) (di.1 : Int) (turns + 1)
                (if di.2 = 1 then shifted + 1 else shifted) (by omega)
              exact ⟨by omega, this.2⟩
            · have := ih (j + 1) lastD turns
                (if di.2 = 1 then shifted + 1 else shifted) (by omega)
              exact ⟨by omega, this.2⟩
      case isFalse hjlen => exact ⟨Nat.le_refl _, hj⟩

theorem spatialOuter_good (password : Str) (graph : Graph) (tag : GraphTag)
    (fuel : Nat) : ∀ (i : Nat) (m : Match),
    m ∈ spatialOuter password graph tag fuel i → GoodMatch password m := by
  induction fuel with
  | zero => intro i m hm; simp [spatialOuter] at hm
  | succ f ih =>
      intro i m hm
      unfold spatialOuter at hm
      split at hm
      case isFalse => simp at hm
      case isTrue hi =>
          simp only [] at hm
          have hb := spatialExtend_bounds password graph (password.length + 1) (i + 1)
            (-1) 0 (spatialShifted0 password tag i) (by omega)
          split at hm
          case isTrue hgt =>
              rw [List.mem_cons] at hm
              rcases hm with hm | hm
              · subst hm
                refine ⟨by simp only [Match.i_mk, Match.j_mk]; omega,
                  by simp only [Match.j_mk]; omega, ?_⟩
                simp only [Match.token_mk, Match.i_mk, Match.j_mk]
                congr 1
                omega
              · exact ih _ _ hm
          case isFalse => exact ih _ _ hm

theorem spatial_match_good (password : Str) (graphs : Graphs) (m : Match)
    (hm : m ∈ spatial_match password graphs) : GoodMatch password m := by
  unfold spatial_match at hm
  rw [List.mem_flatMap] at hm
  obtain ⟨item, -, hm⟩ := hm
  unfold spatial_match_helper at hm
  split at hm
  · simp at hm
  · exact spatialOuter_good password item.2 item.1 (password.length + 1) 0 m hm

/-!  ## Repeat-matcher lemmas  -/

theorem hasRepeatAt_iff {t : Str} {p L : Nat} :
    hasRepeatAt t p L = true ↔
      p + 2 * L ≤ t.length ∧ slice t p L = slice t (p + L) L := by
  rw [hasRepeatAt]
  exact decide_eq_true_iff

theorem lazyL_mem {t : Str} {p Ll : Nat} (h : lazyL t p = some Ll) :
    1 ≤ Ll ∧ hasRepeatAt t p Ll = true := by
  have hmem := List.mem_of_find?_eq_some h
  rw [List.mem_range'_1] at hmem
  exact ⟨hmem.1, List.find?_some h⟩

theorem greedyL_mem {t : Str} {p Lg : Nat} (h : greedyL t p = some Lg) :
    1 ≤ Lg ∧ hasRepeatAt t p Lg = true := by
  have hmem := List.mem_of_find?_eq_some h
  rw [List.mem_reverse, List.mem_range'_1] at hmem
  exact ⟨hmem.1, List.find?_some h⟩

theorem greedyL_isSome_of_lazy {t : Str} {p Ll : Nat} (h : lazyL t p = some Ll) :
    ∃ Lg, greedyL t p = some Lg := by
  have hmem := List.mem_of_find?_eq_some h
  have hpred := List.find?_some h
  have hsome : ((List.range' 1 ((t.length - p) / 2)).reverse.find?
      (hasRepeatAt t p)).isSome := by
    rw [List.find?_isSome]
    exact ⟨Ll, List.mem_reverse.mpr hmem, hpred⟩
  exact Option.isSome_iff_exists.mp hsome

theorem le_listMax {l : List Nat} {x : Nat} (h : x ∈ l) : x ≤ listMax l := by
  induction l with
  | nil => cases h
  | cons a l ih =>
      rcases List.mem_cons.mp h with rfl | h
      · exact Nat.le_max_left _ _
      · exact Nat.le_trans (ih h) (Nat.le_max_right _ _)

theorem listMax_mem {l : List Nat} : listMax l ∈ l ∨ listMax l = 0 := by
  induction l with
  | nil => right; rfl
  | cons a l ih =>
      have hcons : listMax (a :: l) = max a (listMax l) := rfl
      rcases Nat.le_total a (listMax l) with hle | hle
      · rw [hcons, Nat.max_eq_right hle]
        rcases ih with h | h
        · exact Or.inl (List.mem_cons_of_mem _ h)
        · exact Or.inr h
      · rw [hcons, Nat.max_eq_left hle]
        exact Or.inl (List.mem_cons_self _ _)

theorem copiesAt_spec (t : Str) (p L : Nat) (hL : 0 < L)
    (hrep : hasRepeatAt t p L = true) :
    2 ≤ copiesAt t p L ∧ p + copiesAt t p L * L ≤ t.length ∧
      slice t p (copiesAt t p L * L) = powList (slice t p L) (copiesAt t p L) := by
  obtain ⟨hlen, heq⟩ := hasRepeatAt_iff.mp hrep
  have h2mem : 2 ∈ (List.range (t.length + 1)).filter (fun k =>
      decide (1 ≤ k ∧ p + k * L ≤ t.length ∧
        slice t p (k * L) = powList (slice t p L) k)) := by
    rw [List.mem_filter, List.mem_range]
    refine ⟨by omega, decide_eq_true ?_⟩
    refine ⟨by omega, by omega, ?_⟩
    rw [two_mul, slice_append, ← heq]
    simp [powList]
  have h2 : 2 ≤ copiesAt t p L := le_listMax h2mem
  rcases listMax_mem (l := (List.range (t.length + 1)).filter (fun k =>
      decide (1 ≤ k ∧ p + k * L ≤ t.length ∧
        slice t p (k * L) = powList (slice t p L) k))) with hin | h0
  · have := (List.mem_filter.mp hin).2
    have hdec := of_decide_eq_true this
    exact ⟨h2, hdec.2.1, hdec.2.2⟩
  · rw [copiesAt] at h2
    omega

theorem periodAt_iff {g : Str} {L : Nat} :
    periodAt g L = true ↔
      0 < L ∧ L * 2 ≤ g.length ∧ g.length % L = 0 ∧
        g = powList (g.take L) (g.length / L) := by
  rw [periodAt]
  exact decide_eq_true_iff

theorem minPeriod_some {g : Str} {L : Nat} (h : periodAt g L = true) :
    ∃ L', minPeriod g = some L' ∧ 0 < L' ∧ L' * 2 ≤ g.length := by
  have hP := periodAt_iff.mp h
  have hsome : (minPeriod g).isSome := by
    rw [minPeriod, List.find?_isSome]
    exact ⟨L, by rw [List.mem_range]; omega, h⟩
  obtain ⟨L', hL'⟩ := Option.isSome_iff_exists.mp hsome
  have hpred := List.find?_some (p := periodAt g) (by exact hL')
  have hp := periodAt_iff.mp hpred
  exact ⟨L', hL', hp.1, hp.2.1⟩

theorem repeatFind_spec (t : Str) (r : RepeatFound) (h : repeatFind t = some r) :
    0 < r.base.length ∧ r.base.length < r.len ∧ r.pos + r.len ≤ t.length ∧
      2 ≤ r.len := by
  unfold repeatFind at h
  rcases hs : searchPos t with - | p <;> rw [hs] at h <;> simp only [] at h
  · exact Option.noConfusion h
  · have hpred := List.find?_some hs
    simp only [] at hpred
    obtain ⟨Ll, hl⟩ := Option.isSome_iff_exists.mp hpred
    obtain ⟨Lg, hg⟩ := greedyL_isSome_of_lazy hl
    rw [hl, hg] at h
    simp only [] at h
    obtain ⟨hLl1, hLlrep⟩ := lazyL_mem hl
    obtain ⟨hLg1, hLgrep⟩ := greedyL_mem hg
    obtain ⟨hKl2, hKlb, hKleq⟩ := copiesAt_spec t p Ll (by omega) hLlrep
    obtain ⟨hKg2, hKgb, hKgeq⟩ := copiesAt_spec t p Lg (by omega) hLgrep
    have hlg2 : 2 * Lg ≤ copiesAt t p Lg * Lg := Nat.mul_le_mul_right Lg hKg2
    have hll2 : 2 * Ll ≤ copiesAt t p Ll * Ll := Nat.mul_le_mul_right Ll hKl2
    split at h
    · -- greedy strictly longer: base is the shortest period of the greedy match
      have hP : periodAt (slice t p (copiesAt t p Lg * Lg)) Lg = true := by
        rw [periodAt_iff]
        have hglen : (slice t p (copiesAt t p Lg * Lg)).length = copiesAt t p Lg * Lg :=
          slice_length t p _ hKgb
        refine ⟨by omega, by omega, ?_, ?_⟩
        · rw [hglen]
          exact Nat.mul_mod_left _ _
        · rw [hglen, slice_take t p Lg _ (by omega),
            Nat.mul_div_cancel _ (by omega : 0 < Lg)]
          exact hKgeq
      obtain ⟨L', hmp, hL'1, hL'2⟩ := minPeriod_some hP
      rw [hmp] at h
      simp only [Option.some.injEq] at h
      subst h
      have hglen : (slice t p (copiesAt t p Lg * Lg)).length = copiesAt t p Lg * Lg :=
        slice_length t p _ hKgb
      have hbase : ((slice t p (copiesAt t p Lg * Lg)).take L').length = L' := by
        rw [List.length_take, hglen]
        omega
      refine ⟨?_, ?_, ?_, ?_⟩ <;> simp only [hbase]
      · omega
      · omega
      · exact hKgb
      · omega
    · -- lazy wins ties: base is the lazy capture
      simp only [Option.some.injEq] at h
      subst h
      have hbase : (slice t p Ll).length = Ll := slice_length t p Ll (by omega)
      refine ⟨?_, ?_, ?_, ?_⟩ <;> simp only [hbase]
      · omega
      · omega
      · exact hKlb
      · omega

theorem repeatLoop_good (omniRec : Str → List Match) (scorer : Scorer)
    (password : Str) (fuel : Nat) : ∀ (li : Nat) (m : Match),
    m ∈ repeatLoop omniRec scorer password fuel li → GoodMatch password m := by
  induction fuel with
  | zero => intro li m hm; simp [repeatLoop] at hm
  | succ f ih =>
      intro li m hm
      unfold repeatLoop at hm
      split at hm
      case isFalse => simp at hm
      case isTrue hlen =>
          rcases hr : repeatFind (password.drop li) with - | r <;> rw [hr] at hm
          · simp at hm
          · simp only [] at hm
            rw [List.mem_cons] at hm
            rcases hm with hm | hm
            · subst hm
              obtain ⟨hb1, hb2, hb3, hb4⟩ := repeatFind_spec _ _ hr
              rw [List.length_drop] at hb3
              refine ⟨by simp only [Match.i_mk, Match.j_mk]; omega,
                by simp only [Match.j_mk]; omega, ?_⟩
              simp only [Match.token_mk, Match.i_mk, Match.j_mk]
              rw [slice_of_drop]
              congr 1
              omega
            · exact ih _ _ hm

theorem repeat_match_good (omniRec : Str → List Match) (scorer : Scorer)
    (password : Str) (m : Match) (hm : m ∈ repeat_match omniRec scorer password) :
    GoodMatch password m :=
  repeatLoop_good omniRec scorer password (password.length + 1) 0 m hm

/-!  ## Dispatcher bounds  -/

theorem omnimatchF_good (B : RankedDicts) (G : Graphs) (S : Scorer) (fuel : Nat)
    (password : Str) (u : List Str) (m : Match)
    (hm : m ∈ omnimatchF B G S fuel password u) : GoodMatch password m := by
  cases fuel with
  | zero => simp [omnimatchF] at hm
  | succ f =>
      unfold omnimatchF at hm
      rw [mem_sorted] at hm
      simp only [List.append_assoc, List.mem_append] at hm
      rcases hm with h | h | h | h | h | h | h | h
      · exact dictionary_match_good _ _ _ h
      · exact reverse_dictionary_match_good _ _ _ h
      · exact l33t_match_good _ _ _ _ h
      · exact spatial_match_good _ _ _ h
      · exact repeat_match_good _ _ _ _ h
      · exact sequence_match_good _ _ h
      · exact regex_match_good _ _ h
      · exact date_match_good _ _ h

theorem find?_range'_first {f : Nat → Bool} :
    ∀ (n s x : Nat), (List.range' s n).find? f = some x →
      ∀ y, s ≤ y → y < x → f y = false := by
  intro n
  induction n with
  | zero =>
      intro s x h y hsy hyx
      exact Option.noConfusion h
  | succ n ih =>
      intro s x h y hsy hyx
      rw [show List.range' s (n + 1) = s :: List.range' (s + 1) n from rfl] at h
      cases hf : f s with
      | true =>
          rw [List.find?_cons_of_pos _ hf] at h
          simp only [Option.some.injEq] at h
          omega
      | false =>
          rw [List.find?_cons_of_neg _ (by simp [hf])] at h
          rcases Nat.eq_or_lt_of_le hsy with rfl | hlt
          · exact hf
          · exact ih (s + 1) x h y hlt hyx

/-!  ## Claims  -/

/-- C1: for every password and user word list (and any loaded dictionaries,
graphs and scoring engine), every Match returned by `omnimatch` satisfies
`0 ≤ i ≤ j < length password` and `token = password[i..=j]`, so the token
length equals `j - i + 1`; this covers the matches of all eight matchers. -/
theorem omnimatch_match_bounds (builtinDicts : RankedDicts) (graphs : Graphs)
    (scorer : Scorer) (password : Str) (user_list : List Str) (m : Match)
    (hm : m ∈ omnimatch builtinDicts graphs scorer password user_list) :
    m.i ≤ m.j ∧ m.j < password.length ∧
      m.token = slice password m.i (m.j - m.i + 1) ∧
      m.token.length = m.j - m.i + 1 := by
  obtain ⟨h1, h2, h3⟩ := omnimatchF_good _ _ _ _ _ _ _ hm
  refine ⟨h1, h2, h3, ?_⟩
  rw [h3]
  exact slice_length _ _ _ (by omega)

/-- Witness match for the bounds claim: the repeat match on `"aaaa"`. -/
def witnessRepeatMatch : Match :=
  Match.mk 0 3 ['a', 'a', 'a', 'a'] (.repeatM ['a'] 0 [] 4)

theorem omnimatch_match_bounds_witness :
    witnessRepeatMatch.i ≤ witnessRepeatMatch.j ∧
      witnessRepeatMatch.j < (['a', 'a', 'a', 'a'] : Str).length ∧
      witnessRepeatMatch.token = slice ['a', 'a', 'a', 'a'] witnessRepeatMatch.i
        (witnessRepeatMatch.j - witnessRepeatMatch.i + 1) ∧
      witnessRepeatMatch.token.length = witnessRepeatMatch.j - witnessRepeatMatch.i + 1 :=
  omnimatch_match_bounds [] [] stubScorer ['a', 'a', 'a', 'a'] [] witnessRepeatMatch
    (by rw [show omnimatch [] [] stubScorer ['a', 'a', 'a', 'a'] [] =
          [witnessRepeatMatch] from rfl]
        exact List.mem_singleton_self _)

/-- C9: the dispatcher is total — every call returns a (possibly empty)
match list by construction — and the empty password yields the empty
sequence, with every individual matcher returning the empty vector on the
empty string. -/
theorem omnimatch_empty_total (B : RankedDicts) (G : Graphs) (S : Scorer)
    (u : List Str) (dicts : RankedDicts) (rec : Str → List Match) :
    omnimatch B G S [] u = [] ∧
    dictionary_match [] dicts = [] ∧
    reverse_dictionary_match [] dicts = [] ∧
    l33t_match [] dicts L33T_TABLE = [] ∧
    spatial_match [] G = [] ∧
    repeat_match rec S [] = [] ∧
    sequence_match [] = [] ∧
    regex_match [] = [] ∧
    date_match [] = [] := by
  have hflat : ∀ (l : List (DictionaryTag × RankedDict)),
      (l.flatMap fun _ => ([] : List Match)) = [] := by
    intro l
    induction l with
    | nil => rfl
    | cons a l ih => simp [ih]
  have hdict : ∀ d : RankedDicts, dictionary_match [] d = [] := by
    intro d
    unfold dictionary_match
    simp [sorted, hflat]
  have hrev : ∀ d : RankedDicts, reverse_dictionary_match [] d = [] := by
    intro d
    unfold reverse_dictionary_match
    simp only []
    rw [show ([] : Str).reverse = [] from rfl, hdict d]
    rfl
  have hl33t : ∀ d : RankedDicts, l33t_match [] d L33T_TABLE = [] := by
    intro d
    rfl
  have hspat : ∀ G' : Graphs, spatial_match [] G' = [] := by
    intro G'
    unfold spatial_match spatial_match_helper
    simp
  have hrep : ∀ (f : Str → List Match) (S' : Scorer), repeat_match f S' [] = [] := by
    intro f S'
    rfl
  refine ⟨?_, hdict dicts, hrev dicts, hl33t dicts, hspat G, hrep rec S, rfl, rfl, rfl⟩
  unfold omnimatch omnimatchF
  simp only []
  rw [hdict, hrev, hl33t, hspat, hrep]
  rfl

/-- C3: the regex matcher calls `std::regex_match`, which anchors at both
ends of the remaining range, so it emits a match only when the entire
password is exactly one RECENT_YEAR token; a password merely containing
`"1991"` (such as `"a1991"`) yields no RegexMatch, although the loop is
shaped for repeated non-overlapping search. -/
theorem regex_match_is_anchored :
    regex_match ['a', '1', '9', '9', '1'] = [] ∧
    ∀ password : Str,
      regex_match password =
        if recentYearFull password then
          [Match.mk 0 (password.length - 1) password (.regex ⟨.recentYear, [password]⟩)]
        else [] :=
  ⟨rfl, regex_match_eq⟩

/-- C4 counterexample: for the password `"1191"` the emitted date match is
day 11, month 9, year 2001 — not day 1, month 1, year 1991 as claimed. -/
theorem date_match_1191_counterexample :
    date_match ['1', '1', '9', '1'] =
      [Match.mk 0 3 ['1', '1', '9', '1'] (.date ⟨[], 2001, 9, 11, false⟩)] ∧
    (⟨[], 2001, 9, 11, false⟩ : DateMatch) ≠ ⟨[], 1991, 1, 1, false⟩ :=
  ⟨rfl, by decide⟩

/-- C10: when the greedy and lazy repeat searches produce overall matches
of equal length at the (shared) scan position, the lazy result is chosen
(greedy is used only when strictly longer), and the chosen base token is
the shortest unit with a following copy at that position. -/
theorem repeat_lazy_wins_ties (t : Str) (p Lg Ll : Nat)
    (hs : searchPos t = some p) (hg : greedyL t p = some Lg)
    (hl : lazyL t p = some Ll)
    (heq : copiesAt t p Lg * Lg = copiesAt t p Ll * Ll) :
    repeatFind t = some ⟨p, copiesAt t p Ll * Ll, slice t p Ll⟩ ∧
    ∀ L, 0 < L → L < Ll → hasRepeatAt t p L = false := by
  constructor
  · unfold repeatFind
    rw [hs]
    simp only []
    rw [hg, hl]
    simp only []
    rw [if_neg (by omega)]
  · intro L hL0 hLLl
    exact find?_range'_first _ _ _ hl L hL0 hLLl

theorem repeat_lazy_wins_ties_witness :
    repeatFind ['a', 'a', 'a', 'a'] =
      some ⟨0, copiesAt ['a', 'a', 'a', 'a'] 0 1 * 1, slice ['a', 'a', 'a', 'a'] 0 1⟩ :=
  (repeat_lazy_wins_ties ['a', 'a', 'a', 'a'] 0 2 1 rfl rfl rfl rfl).1

theorem repeatLoop_congr (rec1 rec2 : Str → List Match) (S : Scorer) (password : Str)
    (h : ∀ b : Str, b.length < password.length → rec1 b = rec2 b) :
    ∀ fuel li, repeatLoop rec1 S password fuel li = repeatLoop rec2 S password fuel li := by
  intro fuel
  induction fuel with
  | zero => intro li; rfl
  | succ f ih =>
      intro li
      unfold repeatLoop
      split
      case isFalse => rfl
      case isTrue hlen =>
          rcases hr : repeatFind (password.drop li) with - | r
          · rfl
          · simp only []
            obtain ⟨hb1, hb2, hb3, hb4⟩ := repeatFind_spec _ _ hr
            rw [List.length_drop] at hb3
            rw [h r.base (by omega), ih]

theorem omnimatchF_fuel (B : RankedDicts) (G : Graphs) (S : Scorer) :
    ∀ (n : Nat) (p : Str) (u : List Str), p.length < n →
      ∀ fuel, p.length + 1 ≤ fuel →
        omnimatchF B G S fuel p u = omnimatchF B G S (p.length + 1) p u := by
  intro n
  induction n with
  | zero => intro p u h; omega
  | succ n ih =>
      intro p u hp fuel hfuel
      rcases fuel with - | f
      · omega
      have hcong : repeat_match (fun base => omnimatchF B G S f base []) S p =
          repeat_match (fun base => omnimatchF B G S p.length base []) S p := by
        unfold repeat_match
        refine repeatLoop_congr _ _ S p ?_ (p.length + 1) 0
        intro b hb
        rw [ih b [] (by omega) f (by omega), ih b [] (by omega) p.length (by omega)]
      unfold omnimatchF
      simp only []
      rw [hcong]

/-- C7: every repeat found by the repeat scan has a base token strictly
shorter than the full repeated token, which lies inside the remaining
suffix — so the nested `omnimatch` re-entry always receives a strictly
shorter string, and the mutual recursion terminates: a recursion budget of
`password.length + 1` (what `omnimatch` uses) is already exact, and any
larger budget computes the same result. -/
theorem repeat_recursion_terminates :
    (∀ (t : Str) (r : RepeatFound), repeatFind t = some r →
      0 < r.base.length ∧ r.base.length < r.len ∧ r.pos + r.len ≤ t.length) ∧
    (∀ (B : RankedDicts) (G : Graphs) (S : Scorer) (fuel : Nat) (p : Str)
        (u : List Str), p.length + 1 ≤ fuel →
      omnimatchF B G S fuel p u = omnimatch B G S p u) := by
  constructor
  · intro t r h
    obtain ⟨h1, h2, h3, -⟩ := repeatFind_spec t r h
    exact ⟨h1, h2, h3⟩
  · intro B G S fuel p u hf
    exact omnimatchF_fuel B G S (p.length + 1) p u (by omega) fuel hf

theorem repeat_recursion_terminates_witness :
    (0 < (⟨0, 4, ['a']⟩ : RepeatFound).base.length ∧
      (⟨0, 4, ['a']⟩ : RepeatFound).base.length < (⟨0, 4, ['a']⟩ : RepeatFound).len ∧
      (⟨0, 4, ['a']⟩ : RepeatFound).pos + (⟨0, 4, ['a']⟩ : RepeatFound).len ≤
        (['a', 'a', 'a', 'a'] : Str).length) ∧
    omnimatchF [] [] stubScorer 9 ['a', 'a', 'a', 'a'] [] =
      omnimatch [] [] stubScorer ['a', 'a', 'a', 'a'] [] :=
  ⟨repeat_recursion_terminates.1 ['a', 'a', 'a', 'a'] ⟨0, 4, ['a']⟩ rfl,
   repeat_recursion_terminates.2 [] [] stubScorer 9 ['a', 'a', 'a', 'a'] [] (by decide)⟩

theorem l33tTransform_payload (password : Str) (sub : List (Char × Char))
    (m0 m : Match) (h : l33tTransform password sub m0 = some m) :
    ∃ d : DictionaryMatch, m.pattern = .dictionary d ∧ d.l33t = true ∧
      asciiLower m.token ≠ d.matched_word := by
  rcases m0 with ⟨i, j, tok, pat⟩
  cases pat <;> simp only [l33tTransform] at h <;>
    first
    | exact Option.noConfusion h
    | skip
  case dictionary d =>
      split at h
      case isTrue => exact Option.noConfusion h
      case isFalse hne =>
          simp only [Option.some.injEq] at h
          subst h
          exact ⟨_, rfl, rfl, by simpa using hne⟩

theorem l33tLoop_payload (password : Str) (dicts : RankedDicts)
    (subs : List (List (Char × Char))) (m : Match)
    (hm : m ∈ l33tLoop password dicts subs) :
    ∃ d : DictionaryMatch, m.pattern = .dictionary d ∧ d.l33t = true ∧
      asciiLower m.token ≠ d.matched_word := by
  induction subs with
  | nil => simp [l33tLoop] at hm
  | cons sub rest ih =>
      unfold l33tLoop at hm
      split at hm
      · simp at hm
      · rw [List.mem_append] at hm
        rcases hm with hm | hm
        · rw [List.mem_filterMap] at hm
          obtain ⟨m0, -, hf⟩ := hm
          exact l33tTransform_payload _ _ _ _ hf
        · exact ih hm

/-- C8: every match the leet matcher emits has token length at least 2 and
records a real substitution — its original token, ASCII-lowercased, differs
from the matched dictionary word, and the payload is a dictionary payload
with `l33t = true`; moreover the loop stops at the empty substitution map,
which therefore contributes no matches. -/
theorem l33t_match_real_substitutions (password : Str) (dicts : RankedDicts)
    (table : List (Char × List Char)) :
    (∀ m ∈ l33t_match password dicts table,
      2 ≤ m.token.length ∧
      ∃ d : DictionaryMatch, m.pattern = .dictionary d ∧ d.l33t = true ∧
        asciiLower m.token ≠ d.matched_word) ∧
    (∀ rest : List (List (Char × Char)), l33tLoop password dicts ([] :: rest) = []) := by
  constructor
  · intro m hm
    unfold l33t_match at hm
    rw [mem_sorted, List.mem_filter] at hm
    obtain ⟨hloop, hlen⟩ := hm
    refine ⟨?_, l33tLoop_payload _ _ _ _ hloop⟩
    have : ¬(m.token.length ≤ 1) := by
      intro hle
      rw [show decide (m.token.length ≤ 1) = true from decide_eq_true hle] at hlen
      exact Bool.noConfusion hlen
    omega
  · intro rest
    rfl

/-- Witness match for the leet claim: `"p4ssword"` against a dictionary
holding `"password"`. -/
def witnessL33tMatch : Match :=
  Match.mk 0 7 ("p4ssword".toList)
    (.dictionary ⟨DictionaryTag.builtin 0, "password".toList, 1, false, true,
      [('4', 'a')], "4 -> a".toList⟩)

theorem l33t_match_real_substitutions_witness :
    2 ≤ witnessL33tMatch.token.length :=
  ((l33t_match_real_substitutions ("p4ssword".toList)
      [(DictionaryTag.builtin 0, [("password".toList, 1)])] L33T_TABLE).1
    witnessL33tMatch
    (by rw [show l33t_match ("p4ssword".toList)
          [(DictionaryTag.builtin 0, [("password".toList, 1)])] L33T_TABLE =
          [witnessL33tMatch] from rfl]
        exact List.mem_singleton_self _)).1

theorem pickBest_le_head (c : DMY) (cs : List DMY) :
    dateMetric (pickBest c cs) ≤ dateMetric c := by
  induction cs generalizing c with
  | nil => exact Nat.le_refl _
  | cons d cs ih =>
      rw [show pickBest c (d :: cs) =
        pickBest (if dateMetric d < dateMetric c then d else c) cs from rfl]
      split
      case isTrue h => exact Nat.le_trans (ih d) (by omega)
      case isFalse h => exact ih c

theorem pickBest_min (c : DMY) (cs : List DMY) :
    ∀ x ∈ c :: cs, dateMetric (pickBest c cs) ≤ dateMetric x := by
  induction cs generalizing c with
  | nil =>
      intro x hx
      rcases List.mem_cons.mp hx with rfl | hx
      · exact Nat.le_refl _
      · cases hx
  | cons d cs ih =>
      intro x hx
      rw [show pickBest c (d :: cs) =
        pickBest (if dateMetric d < dateMetric c then d else c) cs from rfl]
      split
      case isTrue h =>
          rcases List.mem_cons.mp hx with rfl | hx
          · exact Nat.le_trans (pickBest_le_head d cs) (by omega)
          · exact ih d x hx
      case isFalse h =>
          rcases List.mem_cons.mp hx with rfl | hx
          · exact pickBest_le_head _ cs
          rcases List.mem_cons.mp hx with rfl | hx
          · exact Nat.le_trans (pickBest_le_head c cs) (by omega)
          · exact ih c x (List.mem_cons_of_mem _ hx)

theorem pickBest_decomp (cs : List DMY) : ∀ c : DMY,
    ∃ pre post, c :: cs = pre ++ pickBest c cs :: post ∧
      ∀ y ∈ pre, dateMetric (pickBest c cs) < dateMetric y := by
  induction cs with
  | nil => intro c; exact ⟨[], [], rfl, by simp⟩
  | cons d cs ih =>
      intro c
      rw [show pickBest c (d :: cs) =
        pickBest (if dateMetric d < dateMetric c then d else c) cs from rfl]
      by_cases hdc : dateMetric d < dateMetric c
      · rw [if_pos hdc]
        obtain ⟨pre, post, hde, hpre⟩ := ih d
        refine ⟨c :: pre, post, ?_, ?_⟩
        · rw [List.cons_append, ← hde]
        · intro y hy
          rcases List.mem_cons.mp hy with rfl | hy
          · have := pickBest_le_head d cs
            omega
          · exact hpre y hy
      · rw [if_neg hdc]
        obtain ⟨pre, post, hde, hpre⟩ := ih c
        rcases pre with - | ⟨c0, pre'⟩
        · simp only [List.nil_append] at hde
          injection hde with h1 h2
          refine ⟨[], d :: cs, ?_, by simp⟩
          simp only [List.nil_append]
          rw [← h1]
        · rw [List.cons_append] at hde
          injection hde with h1 h2
          subst h1
          refine ⟨c :: d :: pre', post, ?_, ?_⟩
          · rw [List.cons_append, List.cons_append, ← h2]
          · intro y hy
            have hc : dateMetric (pickBest c cs) < dateMetric c :=
              hpre c (List.mem_cons_self _ _)
            rcases List.mem_cons.mp hy with rfl | hy
            · exact hc
            rcases List.mem_cons.mp hy with rfl | hy
            · omega
            · exact hpre y (List.mem_cons_of_mem _ hy)

theorem find?_eq_of_decomp {α : Type} {P : α → Bool} :
    ∀ (pre : List α) (x : α) (post : List α), P x = true →
      (∀ y ∈ pre, P y = false) →
      (pre ++ x :: post).find? P = some x := by
  intro pre
  induction pre with
  | nil =>
      intro x post hx hpre
      rw [List.nil_append, List.find?_cons_of_pos _ hx]
  | cons a pre ih =>
      intro x post hx hpre
      rw [List.cons_append,
        List.find?_cons_of_neg _ (by simp [hpre a (List.mem_cons_self _ _)])]
      exact ih x post hx (fun y hy => hpre y (List.mem_cons_of_mem _ hy))

/-- C4 (amended): `date_match` keeps, per all-digit substring, the single
candidate whose year minimizes the absolute distance to the reference year
(ties broken by construction order — `std::min_element` returns the first
minimum, characterised here as `find?` of the elements attaining the
minimum metric); in particular `"1191"` resolves to day 11, month 9,
year 2001. -/
theorem date_best_candidate (c : DMY) (cs : List DMY) :
    (c :: cs).find?
        (fun x => (c :: cs).all fun y => decide (dateMetric x ≤ dateMetric y)) =
      some (pickBest c cs) ∧
    date_match ['1', '1', '9', '1'] =
      [Match.mk 0 3 ['1', '1', '9', '1'] (.date ⟨[], 2001, 9, 11, false⟩)] := by
  refine ⟨?_, rfl⟩
  obtain ⟨pre, post, hde, hpre⟩ := pickBest_decomp cs c
  have hmem : pickBest c cs ∈ c :: cs := by
    rw [hde]
    exact List.mem_append_right _ (List.mem_cons_self _ _)
  conv_lhs => rw [hde]
  apply find?_eq_of_decomp
  · rw [List.all_eq_true]
    intro y hy
    rw [← hde] at hy
    exact decide_eq_true (pickBest_min c cs y hy)
  · intro y hy
    have hlt := hpre y hy
    rw [Bool.eq_false_iff]
    intro hall
    have := List.all_eq_true.mp hall (pickBest c cs)
      (List.mem_append_right _ (List.mem_cons_self _ _))
    have := of_decide_eq_true this
    omega

theorem over31_two_iff (v0 v1 v2 : Nat) :
    2 ≤ (if 31 < v0 then 1 else 0) + (if 31 < v1 then 1 else 0) +
        (if 31 < v2 then 1 else 0) ↔
      (31 < v0 ∧ 31 < v1) ∨ (31 < v0 ∧ 31 < v2) ∨ (31 < v1 ∧ 31 < v2) := by
  split_ifs <;> omega

theorem over12_three_iff (v0 v1 v2 : Nat) :
    (if 12 < v0 then 1 else 0) + (if 12 < v1 then 1 else 0) +
        (if 12 < v2 then 1 else 0) = 3 ↔
      12 < v0 ∧ 12 < v1 ∧ 12 < v2 := by
  split_ifs <;> omega

theorem under1_two_iff (v0 v1 v2 : Nat) :
    2 ≤ (if v0 = 0 then 1 else 0) + (if v1 = 0 then 1 else 0) +
        (if v2 = 0 then 1 else 0) ↔
      (v0 = 0 ∧ v1 = 0) ∨ (v0 = 0 ∧ v2 = 0) ∨ (v1 = 0 ∧ v2 = 0) := by
  split_ifs <;> omega

/-- C5 counterexample: the triple (0, 20, 13) is rejected by
`map_ints_to_dmy`, yet none of the claim's rejection rules fires on it
(middle = 20 is fine, no value in 100..999 or above 2050, no two values
exceed 31, not all exceed 12, only one value is zero, and neither outer
value is a 4-digit year). -/
theorem map_ints_rejection_incomplete :
    map_ints_to_dmy 0 20 13 = none ∧
    ¬((31 : Nat) < 20 ∨ (20 : Nat) = 0) ∧
    ¬(((99 : Nat) < 0 ∧ (0 : Nat) < 1000) ∨ (2050 : Nat) < 0 ∨
      ((99 : Nat) < 20 ∧ (20 : Nat) < 1000) ∨ (2050 : Nat) < 20 ∨
      ((99 : Nat) < 13 ∧ (13 : Nat) < 1000) ∨ (2050 : Nat) < 13) ∧
    ¬(((31 : Nat) < 0 ∧ (31 : Nat) < 20) ∨ ((31 : Nat) < 0 ∧ (31 : Nat) < 13) ∨
      ((31 : Nat) < 20 ∧ (31 : Nat) < 13)) ∧
    ¬((12 : Nat) < 0 ∧ (12 : Nat) < 20 ∧ (12 : Nat) < 13) ∧
    ¬(((0 : Nat) = 0 ∧ (20 : Nat) = 0) ∨ ((0 : Nat) = 0 ∧ (13 : Nat) = 0) ∨
      ((20 : Nat) = 0 ∧ (13 : Nat) = 0)) ∧
    ¬((1000 : Nat) ≤ 13 ∧ (13 : Nat) ≤ 2050) ∧
    ¬((1000 : Nat) ≤ 0 ∧ (0 : Nat) ≤ 2050) := by
  decide

set_option maxHeartbeats 1600000 in
/-- C5 (amended): `map_ints_to_dmy` returns no date exactly when one of
the claim's rejection rules fires — middle integer over 31 or zero, a
value over 2050 or in 100..999, two values over 31, all three over 12,
two zeros, or a 4-digit year in an outer position whose remaining pair
does not resolve to a day/month — or, additionally, when no outer
position holds a 4-digit year and neither year placement resolves the
remaining pair to a valid day/month (the fallback also fails). -/
theorem map_ints_to_dmy_none_iff (v0 v1 v2 : Nat) :
    map_ints_to_dmy v0 v1 v2 = none ↔
      (31 < v1 ∨ v1 = 0) ∨
      ((99 < v0 ∧ v0 < 1000) ∨ 2050 < v0 ∨ (99 < v1 ∧ v1 < 1000) ∨ 2050 < v1 ∨
        (99 < v2 ∧ v2 < 1000) ∨ 2050 < v2) ∨
      (((31 < v0 ∧ 31 < v1) ∨ (31 < v0 ∧ 31 < v2) ∨ (31 < v1 ∧ 31 < v2)) ∨
        (12 < v0 ∧ 12 < v1 ∧ 12 < v2) ∨
        ((v0 = 0 ∧ v1 = 0) ∨ (v0 = 0 ∧ v2 = 0) ∨ (v1 = 0 ∧ v2 = 0))) ∨
      (1000 ≤ v2 ∧ v2 ≤ 2050 ∧ map_ints_to_dm v0 v1 = none) ∨
      (¬(1000 ≤ v2 ∧ v2 ≤ 2050) ∧ 1000 ≤ v0 ∧ v0 ≤ 2050 ∧
        map_ints_to_dm v1 v2 = none) ∨
      (¬(1000 ≤ v2 ∧ v2 ≤ 2050) ∧ ¬(1000 ≤ v0 ∧ v0 ≤ 2050) ∧
        map_ints_to_dm v0 v1 = none ∧ map_ints_to_dm v1 v2 = none) := by
  unfold map_ints_to_dmy
  simp only [over31_two_iff, over12_three_iff, under1_two_iff]
  split_ifs with h1 h2 h3 h4 h5
  · exact ⟨fun _ => Or.inl h1, fun _ => rfl⟩
  · exact ⟨fun _ => Or.inr (Or.inl h2), fun _ => rfl⟩
  · exact ⟨fun _ => Or.inr (Or.inr (Or.inl h3)), fun _ => rfl⟩
  · rcases hdm : map_ints_to_dm v0 v1 with - | dm <;> simp only []
    · exact ⟨fun _ => Or.inr (Or.inr (Or.inr (Or.inl ⟨h4.1, h4.2, trivial⟩))),
        fun _ => trivial⟩
    · constructor
      · intro habs
        exact Option.noConfusion habs
      · intro hr
        rcases hr with hr | hr | hr | hr | hr | hr
        · exact absurd hr h1
        · exact absurd hr h2
        · exact absurd hr h3
        · exact Option.noConfusion hr.2.2
        · exact absurd h4 hr.1
        · exact absurd h4 hr.1
  · rcases hdm : map_ints_to_dm v1 v2 with - | dm <;> simp only []
    · exact ⟨fun _ => Or.inr (Or.inr (Or.inr (Or.inr (Or.inl ⟨h4, h5.1, h5.2, trivial⟩)))),
        fun _ => trivial⟩
    · constructor
      · intro habs
        exact Option.noConfusion habs
      · intro hr
        rcases hr with hr | hr | hr | hr | hr | hr
        · exact absurd hr h1
        · exact absurd hr h2
        · exact absurd hr h3
        · exact absurd ⟨hr.1, hr.2.1⟩ h4
        · exact Option.noConfusion hr.2.2.2
        · exact absurd h5 hr.2.1
  · rcases hdm1 : map_ints_to_dm v0 v1 with - | dm1 <;> simp only []
    · rcases hdm2 : map_ints_to_dm v1 v2 with - | dm2 <;> simp only []
      · exact ⟨fun _ => Or.inr (Or.inr (Or.inr (Or.inr (Or.inr ⟨h4, h5, trivial, trivial⟩)))),
          fun _ => trivial⟩
      · constructor
        · intro habs
          exact Option.noConfusion habs
        · intro hr
          rcases hr with hr | hr | hr | hr | hr | hr
          · exact absurd hr h1
          · exact absurd hr h2
          · exact absurd hr h3
          · exact absurd ⟨hr.1, hr.2.1⟩ h4
          · exact absurd ⟨hr.2.1, hr.2.2.1⟩ h5
          · exact Option.noConfusion hr.2.2.2
    · constructor
      · intro habs
        exact Option.noConfusion habs
      · intro hr
        rcases hr with hr | hr | hr | hr | hr | hr
        · exact absurd hr h1
        · exact absurd hr h2
        · exact absurd hr h3
        · exact absurd ⟨hr.1, hr.2.1⟩ h4
        · exact absurd ⟨hr.2.1, hr.2.2.1⟩ h5
        · exact Option.noConfusion hr.2.2.1

theorem isStrictSuper_iff {o m : Match} :
    isStrictSuper o m = true ↔
      ¬(o.i = m.i ∧ o.j = m.j) ∧ o.i ≤ m.i ∧ m.j ≤ o.j := by
  unfold isStrictSuper
  rw [Bool.and_eq_true, Bool.not_eq_true', decide_eq_false_iff_not, decide_eq_true_eq]

theorem mem_prune {ms : List Match} {m : Match} :
    m ∈ prune ms ↔ m ∈ ms ∧ ∀ o ∈ ms, isStrictSuper o m = false := by
  rw [prune, List.mem_filter]
  constructor
  · rintro ⟨h1, h2⟩
    rw [Bool.not_eq_true', List.any_eq_false] at h2
    exact ⟨h1, fun o ho => Bool.eq_false_iff.mpr (h2 o ho)⟩
  · rintro ⟨h1, h2⟩
    refine ⟨h1, ?_⟩
    rw [Bool.not_eq_true', List.any_eq_false]
    intro o ho
    rw [h2 o ho]
    simp

theorem datePre_good (password : Str) (m : Match) (hm : m ∈ datePre password) :
    GoodMatch password m := by
  rw [datePre, List.mem_append] at hm
  rcases hm with h | h
  · exact datePassA_good _ _ h
  · exact datePassB_good _ _ h

theorem exists_max_span : ∀ (l : List Match), l ≠ [] →
    ∃ o ∈ l, ∀ o2 ∈ l, o2.j - o2.i ≤ o.j - o.i := by
  intro l
  induction l with
  | nil => intro h; exact absurd rfl h
  | cons a l ih =>
      intro _
      rcases l with - | ⟨b, l'⟩
      · refine ⟨a, List.mem_singleton_self _, ?_⟩
        intro o2 h2
        rcases List.mem_cons.mp h2 with rfl | h2
        · exact Nat.le_refl _
        · cases h2
      · obtain ⟨o, ho, hmax⟩ := ih (by simp)
        by_cases hao : o.j - o.i ≤ a.j - a.i
        · refine ⟨a, List.mem_cons_self _ _, ?_⟩
          intro o2 h2
          rcases List.mem_cons.mp h2 with rfl | h2
          · exact Nat.le_refl _
          · exact Nat.le_trans (hmax o2 h2) hao
        · refine ⟨o, List.mem_cons_of_mem _ ho, ?_⟩
          intro o2 h2
          rcases List.mem_cons.mp h2 with rfl | h2
          · omega
          · exact hmax o2 h2

/-- C6: after the date matcher's two passes, a date match is discarded
exactly when its index range is a strict subset of a surviving date
match's range; consequently the password `"2015_06_04"` yields exactly
one date match, spanning the full string. -/
theorem date_overlap_pruning (password : Str) (m : Match)
    (hm : m ∈ datePre password) :
    (m ∉ date_match password ↔
      ∃ o, o ∈ date_match password ∧ o.i ≤ m.i ∧ m.j ≤ o.j ∧
        ¬(o.i = m.i ∧ o.j = m.j)) ∧
    date_match ['2', '0', '1', '5', '_', '0', '6', '_', '0', '4'] =
      [Match.mk 0 9 ['2', '0', '1', '5', '_', '0', '6', '_', '0', '4']
        (.date ⟨['_'], 2015, 4, 6, false⟩)] := by
  refine ⟨⟨?_, ?_⟩, rfl⟩
  · intro hnot
    have hex : ∃ o0 ∈ datePre password, isStrictSuper o0 m = true := by
      by_contra hc
      push_neg at hc
      apply hnot
      rw [date_match, mem_sorted, mem_prune]
      exact ⟨hm, fun o ho => Bool.eq_false_iff.mpr (hc o ho)⟩
    obtain ⟨o0, ho0, hsup0⟩ := hex
    have hS : o0 ∈ (datePre password).filter (fun o => isStrictSuper o m) :=
      List.mem_filter.mpr ⟨ho0, hsup0⟩
    obtain ⟨o, hoS, hmax⟩ := exists_max_span
      ((datePre password).filter (fun o => isStrictSuper o m)) (by
        intro he
        rw [he] at hS
        cases hS)
    rw [List.mem_filter] at hoS
    obtain ⟨hoPre, hoSup⟩ := hoS
    obtain ⟨hne, hoi, hoj⟩ := isStrictSuper_iff.mp hoSup
    refine ⟨o, ?_, hoi, hoj, hne⟩
    rw [date_match, mem_sorted, mem_prune]
    refine ⟨hoPre, ?_⟩
    intro o2 ho2
    rw [Bool.eq_false_iff]
    intro hsup2
    obtain ⟨hne2, h2i, h2j⟩ := isStrictSuper_iff.mp hsup2
    have hsub2m : isStrictSuper o2 m = true := by
      rw [isStrictSuper_iff]
      refine ⟨?_, Nat.le_trans h2i hoi, Nat.le_trans hoj h2j⟩
      rintro ⟨hia, hja⟩
      exact hne ⟨by omega, by omega⟩
    have h2S : o2 ∈ (datePre password).filter (fun o => isStrictSuper o m) :=
      List.mem_filter.mpr ⟨ho2, hsub2m⟩
    have hspan := hmax o2 h2S
    have hgood := datePre_good password o hoPre
    have hstrict : o2.i < o.i ∨ o.j < o2.j := by
      by_contra hc
      push_neg at hc
      exact hne2 ⟨by omega, by omega⟩
    obtain ⟨hg1, -, -⟩ := hgood
    omega
  · rintro ⟨o, ho, hoi, hoj, hne⟩ hmem
    rw [date_match, mem_sorted, mem_prune] at hmem ho
    have hfalse := hmem.2 o ho.1
    have htrue : isStrictSuper o m = true := isStrictSuper_iff.mpr ⟨hne, hoi, hoj⟩
    rw [htrue] at hfalse
    exact Bool.noConfusion hfalse

theorem date_overlap_pruning_witness :
    (Match.mk 0 3 ['2', '0', '1', '5'] (.date ⟨[], 2005, 1, 20, false⟩)) ∉
      date_match ['2', '0', '1', '5', '_', '0', '6', '_', '0', '4'] :=
  ((date_overlap_pruning ['2', '0', '1', '5', '_', '0', '6', '_', '0', '4']
      (Match.mk 0 3 ['2', '0', '1', '5'] (.date ⟨[], 2005, 1, 20, false⟩))
      (List.mem_append_left _ (by
        rw [show datePassA ['2', '0', '1', '5', '_', '0', '6', '_', '0', '4'] =
          [Match.mk 0 3 ['2', '0', '1', '5'] (.date ⟨[], 2005, 1, 20, false⟩)] from rfl]
        exact List.mem_singleton_self _))).1).mpr
    ⟨Match.mk 0 9 ['2', '0', '1', '5', '_', '0', '6', '_', '0', '4']
        (.date ⟨['_'], 2015, 4, 6, false⟩),
      by
        rw [show date_match ['2', '0', '1', '5', '_', '0', '6', '_', '0', '4'] =
          [Match.mk 0 9 ['2', '0', '1', '5', '_', '0', '6', '_', '0', '4']
            (.date ⟨['_'], 2015, 4, 6, false⟩)] from rfl]
        exact List.mem_singleton_self _,
      by decide, by decide, by decide⟩

end Zxcvbn
